import Mathlib

/-!
Shallow embedding of the character-level text-generation core of the
notebook: the vocabulary codec built on a Keras character tokenizer
(`word_index`, `eos_token`, `vocab_size`, `reverse_map`, `decode`), the
greedy decoder `generate`, and the temperature-sampling decoder
`generate_soft`.

Python strings are embedded as `List Char`; probability values are
embedded as `ℚ` for the greedy decoder (only order comparisons are used)
and as `ℝ` for the sampling decoder (which applies `exp` and `log`).
The trained model is an opaque parameter: a function from a token
sequence to the list of per-position probability distributions, of which
the decoders consult only the final position (the source's
`model(...)[0][-1]`).  The process-wide random source consumed by
`np.random.multinomial` is embedded as an explicit sampler parameter
receiving the step number and the renormalized distribution.
-/

namespace TextGen

/-- The character vocabulary of the fitted Keras tokenizer.  The
tokenizer's `word_index` maps each distinct character of the corpus to a
dense 1-based integer rank; we record the characters in rank order, so
the character at position `j` has index `j + 1`.  Dictionary keys are
distinct, hence the `Nodup` invariant. -/
structure Vocab where
  chars : List Char
  nodup : chars.Nodup

/-- Position of the first occurrence of a character in a list, the
lookup underlying the tokenizer's `word_index` dictionary. -/
def index_of_char : List Char → Char → Option Nat
  | [], _ => none
  | d :: ds, c => if d = c then some 0 else (index_of_char ds c).map (· + 1)

/-- `tokenizer.word_index` restricted to single characters: the 1-based
index of a character, `none` for characters absent from the vocabulary.
(The `'<eos>'` entry of the Python dict has a five-character string key,
which a single character can never equal, so it is irrelevant to
character lookup and is handled separately in `reverse_map_get`.) -/
def word_index (v : Vocab) (c : Char) : Option Nat :=
  (index_of_char v.chars c).map (· + 1)

/-- `eos_token = len(tokenizer.word_index) + 1`, computed before the
`'<eos>'` entry itself is inserted into the dict. -/
def eos_token (v : Vocab) : Nat :=
  v.chars.length + 1

/-- `vocab_size = eos_token + 1`. -/
def vocab_size (v : Vocab) : Nat :=
  eos_token v + 1

/-- `tokenizer.texts_to_sequences`: each character is looked up in
`word_index`; characters without a mapping are silently skipped. -/
def encode (v : Vocab) (s : List Char) : List Nat :=
  s.filterMap (word_index v)

/-- `reverse_map.get(t, '')` where
`reverse_map = {val: key for key, val in tokenizer.word_index.items()}`.
Because `reverse_map` is built after `'<eos>'` was added to
`word_index`, the end-of-sequence index maps to the literal string
`'<eos>'`; indices `1..n` map to their characters; any other integer is
absent from the dict and yields the empty string. -/
def reverse_map_get (v : Vocab) (t : Nat) : List Char :=
  if t = eos_token v then ['<', 'e', 'o', 's', '>']
  else if h : 1 ≤ t ∧ t ≤ v.chars.length then [v.chars.get ⟨t - 1, by omega⟩]
  else []

/-- `decode(x) = ''.join([reverse_map.get(t, '') for t in x])`. -/
def decode (v : Vocab) (x : List Nat) : List Char :=
  (x.map (reverse_map_get v)).flatten

/-- `tf.argmax` on a 1-D tensor: the index of the maximum entry, ties
broken by the lowest index. -/
def argmax : List ℚ → Nat
  | [] => 0
  | x :: xs =>
    match xs.get? (argmax xs) with
    | some y => if x < y then argmax xs + 1 else 0
    | none => 0

/-- Failure modes the decoding code can actually hit: `model(...)[0][-1]`
raises an index-out-of-range error when the model's per-position output
is empty (which happens exactly when the current token sequence is
empty, since a sequence model emits one distribution per input
position). -/
inductive GenErr where
  | indexError
deriving DecidableEq

/-- The loop of `generate`: `for i in range(size)` query the model on
`inp`, take the distribution at the final position, pick its argmax,
stop before appending if it is the end-of-sequence index, otherwise
`chars.append(nc)` then `inp = inp + [nc]` and continue.

In the source `chars = inp` makes the two names alias one list object,
and each iteration appends to `chars` BEFORE rebinding `inp`, so on the
first non-breaking iteration the append mutates the still-shared object
and the rebinding then produces `seed + [nc, nc]`: from the second query
on, the model input carries the first generated token twice, while
`chars` — the sequence that is decoded and returned — carries every
generated token once.  The state is therefore the pair
`st = (chars, inp)` together with a flag recording whether the two names
still denote the same object, which is the case only until the first
append. -/
def generate_loop (model : List Nat → List (List ℚ)) (eos : Nat) :
    Nat → Bool → List Nat × List Nat → Except GenErr (List Nat)
  | 0, _, st => .ok st.1
  | size + 1, aliased, st =>
    match (model st.2).getLast? with
    | none => .error GenErr.indexError
    | some out =>
      if argmax out = eos then .ok st.1
      else generate_loop model eos size false
        (st.1 ++ [argmax out],
          (cond aliased (st.1 ++ [argmax out]) st.2) ++ [argmax out])

/-- `generate(model, size, start)`: encode the seed, run the greedy loop
from the aliased state `chars = inp = encoded seed`, decode the final
`chars`. -/
def generate (v : Vocab) (model : List Nat → List (List ℚ)) (size : Nat)
    (start : List Char) : Except GenErr (List Char) :=
  (generate_loop model (eos_token v) size true
    (encode v start, encode v start)).map (decode v)

/-- The temperature rescaling of `generate_soft`:
`probs = exp(log(out) / temperature); probs = probs / sum(probs)`. -/
noncomputable def rescale (out : List ℝ) (temperature : ℝ) : List ℝ :=
  let probs := out.map fun p => Real.exp (Real.log p / temperature)
  probs.map fun q => q / probs.sum

/-- The loop of `generate_soft`: like `generate_loop` — including the
same `chars = inp` aliasing, which duplicates the first sampled token in
every model query from the second one on — but the next token is drawn
by the sampler (embedding
`np.argmax(np.random.multinomial(1, probs, 1))` over the global random
state) from the temperature-rescaled, renormalized distribution.  The
counter `i` numbers the draws of the random stream. -/
noncomputable def generate_soft_loop (model : List Nat → List (List ℝ))
    (sampler : Nat → List ℝ → Nat) (eos : Nat) (temperature : ℝ) :
    Nat → Nat → Bool → List Nat × List Nat → Except GenErr (List Nat)
  | 0, _, _, st => .ok st.1
  | size + 1, i, aliased, st =>
    match (model st.2).getLast? with
    | none => .error GenErr.indexError
    | some out =>
      let nc := sampler i (rescale out temperature)
      if nc = eos then .ok st.1
      else generate_soft_loop model sampler eos temperature size (i + 1) false
        (st.1 ++ [nc], (cond aliased (st.1 ++ [nc]) st.2) ++ [nc])

/-- `generate_soft(model, size, start, temperature)`. -/
noncomputable def generate_soft (v : Vocab) (model : List Nat → List (List ℝ))
    (sampler : Nat → List ℝ → Nat) (size : Nat) (start : List Char)
    (temperature : ℝ) : Except GenErr (List Char) :=
  (generate_soft_loop model sampler (eos_token v) temperature size 0 true
    (encode v start, encode v start)).map (decode v)

/-- Distribution at the final position of the model's output, the value
of `model(...)[0][-1]` when it exists. -/
def last_dist (model : List Nat → List (List ℚ)) (inp : List Nat) : List ℚ :=
  ((model inp).getLast?).getD []

/-- The token the greedy loop selects from a given query sequence. -/
def next_choice (model : List Nat → List (List ℚ)) (inp : List Nat) : Nat :=
  argmax (last_dist model inp)

/-- One non-breaking iteration of the greedy loop after the aliasing has
been severed: the chosen token is appended to both `chars` and `inp`. -/
def pair_step (model : List Nat → List (List ℚ)) (st : List Nat × List Nat) :
    List Nat × List Nat :=
  (st.1 ++ [next_choice model st.2], st.2 ++ [next_choice model st.2])

/-- The `(chars, inp)` state after `j` post-aliasing iterations from an
arbitrary state. -/
def pair_at (model : List Nat → List (List ℚ)) (st : List Nat × List Nat) :
    Nat → List Nat × List Nat
  | 0 => st
  | j + 1 => pair_step model (pair_at model st j)

/-- The `(chars, inp)` state of the greedy run after `j` non-breaking
iterations from the encoded seed `e`.  The run starts with
`chars = inp = e` aliased, so the first iteration leaves
`chars = e ++ [nc1]` but `inp = e ++ [nc1, nc1]` (the first chosen token
is duplicated in every later model query); afterwards both lists grow by
the same single token per iteration.  The query the model answers at
step `j + 1` of the program is `(run_state model e j).2`. -/
def run_state (model : List Nat → List (List ℚ)) (e : List Nat) :
    Nat → List Nat × List Nat
  | 0 => (e, e)
  | j + 1 =>
    ((run_state model e j).1 ++ [next_choice model (run_state model e j).2],
      (if j = 0 then
          (run_state model e j).1 ++ [next_choice model (run_state model e j).2]
        else (run_state model e j).2) ++
        [next_choice model (run_state model e j).2])

/-- The concrete vocabulary {'a': 1, 'b': 2, 'c': 3, '<eos>': 4} of the
specification's scenarios. -/
def vABC : Vocab :=
  ⟨['a', 'b', 'c'], by decide⟩

/-- One-hot probability vector of length 5 peaked at index `j`. -/
def one_hot5 (j : Nat) : List ℚ :=
  (List.range 5).map fun i => if i = j then 1 else 0

/-- Stub predictor cycling deterministically through indices
[1, 2, 3, 4]: it puts all probability mass on the cyclic successor of
the last token of its query, so the successive calls of the run from
seed "a" return 2, 3, 4 — one index per call — regardless of the
duplicated first token in the later queries. -/
def cycle_stub (seq : List Nat) : List (List ℚ) :=
  [one_hot5 ((seq.getLast?).getD 0 % 4 + 1)]

/-- Stub sequence model that, like any sequence model, returns one
distribution per input position — hence none for the empty sequence. -/
def empty_stub : List Nat → List (List ℚ) :=
  fun seq => seq.map fun _ => one_hot5 4

/-- Real-valued stub predictor (never consulted in the places it is
used). -/
def empty_stub_r : List Nat → List (List ℝ) :=
  fun _ => []

/-- Trivial sampler stub. -/
def zero_sampler : Nat → List ℝ → Nat :=
  fun _ _ => 0

/-! ### Lemmas about the vocabulary codec -/

theorem index_of_char_mem : ∀ (l : List Char) (c : Char), c ∈ l →
    ∃ i, index_of_char l c = some i ∧ ∃ h : i < l.length, l.get ⟨i, h⟩ = c := by
  intro l
  induction l with
  | nil => intro c hc; cases hc
  | cons d ds ih =>
    intro c hc
    by_cases hd : d = c
    · exact ⟨0, by simp [index_of_char, hd], Nat.succ_pos _, hd⟩
    · have hcds : c ∈ ds := by
        rcases List.mem_cons.mp hc with h | h
        · exact absurd h.symm hd
        · exact h
      obtain ⟨i, hi, hlt, hget⟩ := ih c hcds
      exact ⟨i + 1, by simp [index_of_char, hd, hi], Nat.succ_lt_succ hlt, by
        simpa using hget⟩

theorem index_of_char_some : ∀ (l : List Char) (c : Char) (i : Nat),
    index_of_char l c = some i → ∃ h : i < l.length, l.get ⟨i, h⟩ = c := by
  intro l
  induction l with
  | nil => intro c i h; cases h
  | cons d ds ih =>
    intro c i h
    rw [index_of_char] at h
    by_cases hd : d = c
    · simp [hd] at h
      subst h
      exact ⟨Nat.succ_pos _, hd⟩
    · simp [hd] at h
      obtain ⟨j, hj, hji⟩ := h
      obtain ⟨hlt, hget⟩ := ih c j hj
      subst hji
      exact ⟨Nat.succ_lt_succ hlt, by simpa using hget⟩

theorem index_of_char_get : ∀ (l : List Char), l.Nodup → ∀ (j : Nat) (hj : j < l.length),
    index_of_char l (l.get ⟨j, hj⟩) = some j := by
  intro l
  induction l with
  | nil => intro _ j hj; cases hj
  | cons d ds ih =>
    intro hnd j hj
    rcases List.nodup_cons.mp hnd with ⟨hdn, hdsn⟩
    match j with
    | 0 => simp [index_of_char]
    | j + 1 =>
      have hj' : j < ds.length := Nat.lt_of_succ_lt_succ hj
      have hne : d ≠ ds.get ⟨j, hj'⟩ := by
        intro he
        exact hdn (he ▸ List.get_mem ds j hj')
      simp only [List.get_cons_succ, index_of_char, if_neg hne, ih hdsn j hj']
      rfl

theorem decode_nil (v : Vocab) : decode v [] = [] := rfl

theorem decode_cons (v : Vocab) (t : Nat) (x : List Nat) :
    decode v (t :: x) = reverse_map_get v t ++ decode v x := by
  simp [decode]

theorem decode_single (v : Vocab) (t : Nat) :
    decode v [t] = reverse_map_get v t := by
  simp [decode]

theorem reverse_map_get_word_index {v : Vocab} {c : Char} {i : Nat}
    (h : word_index v c = some i) : reverse_map_get v i = [c] := by
  rcases Option.map_eq_some'.mp h with ⟨i0, hi0, hadd⟩
  obtain ⟨hlt, hget⟩ := index_of_char_some v.chars c i0 hi0
  subst hadd
  have hne : i0 + 1 ≠ eos_token v := by
    unfold eos_token
    omega
  have hb : 1 ≤ i0 + 1 ∧ i0 + 1 ≤ v.chars.length := ⟨Nat.succ_pos _, hlt⟩
  rw [reverse_map_get, if_neg hne, dif_pos hb]
  simpa using hget

theorem word_index_bounds {v : Vocab} {c : Char} {i : Nat}
    (h : word_index v c = some i) : 1 ≤ i ∧ i ≤ v.chars.length := by
  rcases Option.map_eq_some'.mp h with ⟨i0, hi0, hadd⟩
  obtain ⟨hlt, _⟩ := index_of_char_some v.chars c i0 hi0
  subst hadd
  exact ⟨Nat.succ_pos _, hlt⟩

theorem encode_mem_bounds {v : Vocab} {s : List Char} {t : Nat}
    (h : t ∈ encode v s) : 1 ≤ t ∧ t ≤ v.chars.length := by
  rcases List.mem_filterMap.mp h with ⟨c, _, hc⟩
  exact word_index_bounds hc

theorem eos_not_mem_encode (v : Vocab) (s : List Char) :
    eos_token v ∉ encode v s := by
  intro h
  have := encode_mem_bounds h
  unfold eos_token at this
  omega

/-! ### Lemmas about `argmax` -/

theorem argmax_lt_length : ∀ (l : List ℚ), l ≠ [] → argmax l < l.length := by
  intro l
  induction l with
  | nil => intro h; exact absurd rfl h
  | cons x xs ih =>
    intro _
    rw [argmax]
    match hm : xs.get? (argmax xs) with
    | none => simp
    | some y =>
      have hlt : argmax xs < xs.length := (List.get?_eq_some.mp hm).1
      by_cases hxy : x < y
      · simp only [if_pos hxy, List.length_cons]
        omega
      · simp [if_neg hxy]

theorem argmax_is_first_max : ∀ (l : List ℚ) (i : Nat) (hi : i < l.length)
    (hj : argmax l < l.length),
    l.get ⟨i, hi⟩ ≤ l.get ⟨argmax l, hj⟩ ∧
      (i < argmax l → l.get ⟨i, hi⟩ < l.get ⟨argmax l, hj⟩) := by
  intro l
  induction l with
  | nil => intro i hi; cases hi
  | cons x xs ih =>
    intro i hi hj
    match hm : xs.get? (argmax xs) with
    | none =>
      have hxs : xs = [] := by
        by_contra hne
        have h1 : xs.length ≤ argmax xs := List.get?_eq_none.mp hm
        have h2 : argmax xs < xs.length := argmax_lt_length xs hne
        omega
      subst hxs
      match i with
      | 0 => simp [argmax]
      | i + 1 => exact absurd hi (by simp)
    | some y =>
      have hlt : argmax xs < xs.length := (List.get?_eq_some.mp hm).1
      have hy : xs.get ⟨argmax xs, hlt⟩ = y := (List.get?_eq_some.mp hm).2
      have harg : argmax (x :: xs) =
          if x < y then argmax xs + 1 else 0 := by
        rw [argmax, hm]
      by_cases hxy : x < y
      · rw [if_pos hxy] at harg
        have hj' : argmax (x :: xs) < (x :: xs).length := hj
        have hgetj : (x :: xs).get ⟨argmax (x :: xs), hj⟩ = y := by
          simp only [harg, List.get_cons_succ]
          exact hy
        rw [hgetj]
        match i with
        | 0 =>
          refine ⟨le_of_lt hxy, fun _ => ?_⟩
          simpa using hxy
        | i + 1 =>
          have hi' : i < xs.length := Nat.lt_of_succ_lt_succ hi
          have hjx : argmax xs < xs.length := hlt
          obtain ⟨hle, hstrict⟩ := ih i hi' hjx
          rw [hy] at hle hstrict
          refine ⟨by simpa using hle, fun hlt2 => ?_⟩
          have : i < argmax xs := by omega
          simpa using hstrict this
      · rw [if_neg hxy] at harg
        have hyx : y ≤ x := le_of_not_lt hxy
        have hgetj : (x :: xs).get ⟨argmax (x :: xs), hj⟩ = x := by
          simp [harg]
        rw [hgetj]
        match i with
        | 0 => exact ⟨le_refl x, by simp [harg]⟩
        | i + 1 =>
          have hi' : i < xs.length := Nat.lt_of_succ_lt_succ hi
          obtain ⟨hle, _⟩ := ih i hi' hlt
          rw [hy] at hle
          exact ⟨by simpa using le_trans hle hyx, by simp [harg]⟩

/-! ### Lemmas about the greedy run -/

theorem pair_at_shift (model : List Nat → List (List ℚ)) (st : List Nat × List Nat) :
    ∀ j : Nat, pair_at model st (j + 1) = pair_at model (pair_step model st) j := by
  intro j
  induction j with
  | zero => rfl
  | succ j ih =>
    show pair_step model (pair_at model st (j + 1)) =
      pair_at model (pair_step model st) (j + 1)
    rw [ih]
    rfl

theorem run_state_succ (model : List Nat → List (List ℚ)) (e : List Nat) :
    ∀ j : Nat, run_state model e (j + 1) = pair_at model (run_state model e 1) j := by
  intro j
  induction j with
  | zero => rfl
  | succ j ih =>
    have h1 : run_state model e (j + 1 + 1) =
        ((run_state model e (j + 1)).1 ++
            [next_choice model (run_state model e (j + 1)).2],
          (if j + 1 = 0 then
              (run_state model e (j + 1)).1 ++
                [next_choice model (run_state model e (j + 1)).2]
            else (run_state model e (j + 1)).2) ++
            [next_choice model (run_state model e (j + 1)).2]) := rfl
    rw [h1, if_neg (Nat.succ_ne_zero j), ih]
    rfl

theorem run_state_fst_length (model : List Nat → List (List ℚ)) (e : List Nat) :
    ∀ m : Nat, (run_state model e m).1.length = e.length + m := by
  intro m
  induction m with
  | zero => rfl
  | succ m ih =>
    have h1 : (run_state model e (m + 1)).1 =
        (run_state model e m).1 ++ [next_choice model (run_state model e m).2] := rfl
    rw [h1, List.length_append, ih, List.length_singleton]
    omega

theorem run_state_fst_not_mem (model : List Nat → List (List ℚ)) (e : List Nat)
    (eos : Nat) (hin : eos ∉ e) :
    ∀ m : Nat, (∀ j, j < m → next_choice model (run_state model e j).2 ≠ eos) →
      eos ∉ (run_state model e m).1 := by
  intro m
  induction m with
  | zero => intro _; exact hin
  | succ m ih =>
    intro hpre
    have h1 : (run_state model e (m + 1)).1 =
        (run_state model e m).1 ++ [next_choice model (run_state model e m).2] := rfl
    rw [h1]
    intro hmem
    rcases List.mem_append.mp hmem with h | h
    · exact ih (fun j hj => hpre j (Nat.lt_succ_of_lt hj)) h
    · exact hpre m (Nat.lt_succ_self m) (List.mem_singleton.mp h).symm

theorem last_dist_eq {model : List Nat → List (List ℚ)} {inp : List Nat}
    (hwf : model inp ≠ []) : (model inp).getLast? = some (last_dist model inp) := by
  rw [last_dist]
  match hm : (model inp).getLast? with
  | some d => rfl
  | none => exact absurd (List.getLast?_eq_none_iff.mp hm) hwf

theorem generate_loop_run_false (model : List Nat → List (List ℚ)) (eos : Nat) :
    ∀ (m size : Nat) (st : List Nat × List Nat), m ≤ size →
      (∀ inp, model inp ≠ []) →
      (∀ j, j < m → next_choice model (pair_at model st j).2 ≠ eos) →
      next_choice model (pair_at model st m).2 = eos →
      generate_loop model eos size false st = .ok (pair_at model st m).1 := by
  intro m
  induction m with
  | zero =>
    intro size st _ hwf _ heos
    match size with
    | 0 => rfl
    | s + 1 =>
      have h1 : argmax (last_dist model st.2) = eos := heos
      simp only [generate_loop, last_dist_eq (hwf st.2), h1, if_pos]
      rfl
  | succ m ih =>
    intro size st hms hwf hpre heos
    match size with
    | 0 => exact absurd hms (by omega)
    | s + 1 =>
      have h0 : next_choice model (pair_at model st 0).2 ≠ eos :=
        hpre 0 (Nat.succ_pos m)
      have h0' : argmax (last_dist model st.2) ≠ eos := h0
      simp only [generate_loop, last_dist_eq (hwf st.2), if_neg h0', Bool.cond_false]
      have hstep : (st.1 ++ [argmax (last_dist model st.2)],
          st.2 ++ [argmax (last_dist model st.2)]) = pair_step model st := rfl
      rw [hstep]
      have hres := ih s (pair_step model st) (Nat.le_of_succ_le_succ hms) hwf
        (fun j hj => by
          rw [← pair_at_shift]
          exact hpre (j + 1) (Nat.succ_lt_succ hj))
        (by rw [← pair_at_shift]; exact heos)
      rw [hres, ← pair_at_shift]

theorem generate_loop_run (model : List Nat → List (List ℚ)) (eos : Nat) :
    ∀ (m size : Nat) (e : List Nat), m ≤ size →
      (∀ inp, model inp ≠ []) →
      (∀ j, j < m → next_choice model (run_state model e j).2 ≠ eos) →
      next_choice model (run_state model e m).2 = eos →
      generate_loop model eos size true (e, e) = .ok (run_state model e m).1 := by
  intro m size e hms hwf hpre heos
  match m with
  | 0 =>
    match size with
    | 0 => rfl
    | s + 1 =>
      have h1 : argmax (last_dist model e) = eos := heos
      simp only [generate_loop, last_dist_eq (hwf e), h1, if_pos]
      rfl
  | m + 1 =>
    match size with
    | 0 => exact absurd hms (by omega)
    | s + 1 =>
      have h0 : next_choice model (run_state model e 0).2 ≠ eos :=
        hpre 0 (Nat.succ_pos m)
      have h0' : argmax (last_dist model e) ≠ eos := h0
      simp only [generate_loop, last_dist_eq (hwf e), if_neg h0', Bool.cond_true]
      have hst : ((e : List Nat) ++ [argmax (last_dist model e)],
          (e ++ [argmax (last_dist model e)]) ++ [argmax (last_dist model e)]) =
          run_state model e 1 := rfl
      rw [hst]
      have hres := generate_loop_run_false model eos m s (run_state model e 1)
        (Nat.le_of_succ_le_succ hms) hwf
        (fun j hj => by
          rw [← run_state_succ]
          exact hpre (j + 1) (Nat.succ_lt_succ hj))
        (by rw [← run_state_succ]; exact heos)
      rw [hres, ← run_state_succ]

theorem generate_loop_length (model : List Nat → List (List ℚ)) (eos : Nat) :
    ∀ (size : Nat) (aliased : Bool) (chars inp out : List Nat),
      generate_loop model eos size aliased (chars, inp) = .ok out →
      out.length ≤ chars.length + size := by
  intro size
  induction size with
  | zero =>
    intro aliased chars inp out h
    rw [generate_loop] at h
    cases h
    simp
  | succ n ih =>
    intro aliased chars inp out h
    rw [generate_loop] at h
    match hm : (model (chars, inp).2).getLast? with
    | none => simp only [hm] at h; cases h
    | some d =>
      simp only [hm] at h
      by_cases he : argmax d = eos
      · rw [if_pos he] at h
        cases h
        show chars.length ≤ chars.length + (n + 1)
        omega
      · rw [if_neg he] at h
        have := ih false (chars ++ [argmax d])
          ((cond aliased ((chars, inp).1 ++ [argmax d]) (chars, inp).2) ++ [argmax d])
          out h
        rw [List.length_append, List.length_singleton] at this
        omega

theorem generate_soft_loop_length (model : List Nat → List (List ℝ))
    (sampler : Nat → List ℝ → Nat) (eos : Nat) (temperature : ℝ) :
    ∀ (size i : Nat) (aliased : Bool) (chars inp out : List Nat),
      generate_soft_loop model sampler eos temperature size i aliased (chars, inp) =
        .ok out →
      out.length ≤ chars.length + size := by
  intro size
  induction size with
  | zero =>
    intro i aliased chars inp out h
    rw [generate_soft_loop] at h
    cases h
    simp
  | succ n ih =>
    intro i aliased chars inp out h
    rw [generate_soft_loop] at h
    match hm : (model (chars, inp).2).getLast? with
    | none => simp only [hm] at h; cases h
    | some d =>
      simp only [hm] at h
      by_cases he : sampler i (rescale d temperature) = eos
      · simp only [he, if_pos] at h
        cases h
        show chars.length ≤ chars.length + (n + 1)
        omega
      · simp only [if_neg he] at h
        have := ih (i + 1) false (chars ++ [sampler i (rescale d temperature)])
          ((cond aliased ((chars, inp).1 ++ [sampler i (rescale d temperature)])
              (chars, inp).2) ++ [sampler i (rescale d temperature)])
          out h
        rw [List.length_append, List.length_singleton] at this
        omega

end TextGen

namespace TextGen

/-! ### Claim theorems -/

/-- Claim C1: for every string composed only of vocabulary characters,
decoding the encoding reproduces the string exactly:
`decode (encode s) = s`. -/
theorem decode_encode_roundtrip (v : Vocab) (s : List Char)
    (h : ∀ c ∈ s, c ∈ v.chars) : decode v (encode v s) = s := by
  induction s with
  | nil => rfl
  | cons c s ih =>
    have hc : c ∈ v.chars := h c (List.mem_cons_self c s)
    obtain ⟨i0, hi0, hlt, hget⟩ := index_of_char_mem v.chars c hc
    have hw : word_index v c = some (i0 + 1) := by simp [word_index, hi0]
    have henc : encode v (c :: s) = (i0 + 1) :: encode v s := by
      simp [encode, List.filterMap_cons, hw]
    rw [henc, decode_cons, reverse_map_get_word_index hw,
      ih (fun d hd => h d (List.mem_cons_of_mem c hd))]
    rfl

/-- Witness for C1 at the concrete vocabulary {'a', 'b', 'c'}. -/
theorem decode_encode_roundtrip_witness :
    decode vABC (encode vABC ['a', 'b', 'a', 'c']) = ['a', 'b', 'a', 'c'] :=
  decode_encode_roundtrip vABC ['a', 'b', 'a', 'c'] (by decide)

/-- Counterexample to claim C2 as stated: the end-of-sequence index does
not decode to the empty string; because `reverse_map` is built from
`word_index` after the `'<eos>'` entry was added, index 4 of the
vocabulary {'a': 1, 'b': 2, 'c': 3, '<eos>': 4} decodes to the literal
five-character string `'<eos>'`. -/
theorem decode_eos_counterexample :
    decode vABC [4] = ['<', 'e', 'o', 's', '>'] ∧ decode vABC [4] ≠ [] := by
  exact ⟨rfl, by decide⟩

/-- Claim C2 (amended): decode is total and never fails; every character
index decodes to its character, the end-of-sequence index decodes to the
literal string `'<eos>'`, and any index outside the reverse map (zero or
greater than the end-of-sequence index) decodes to the empty string. -/
theorem decode_totality (v : Vocab) :
    (∀ c i, word_index v c = some i → decode v [i] = [c]) ∧
    decode v [eos_token v] = ['<', 'e', 'o', 's', '>'] ∧
    (∀ t, t = 0 ∨ eos_token v < t → decode v [t] = []) := by
  refine ⟨fun c i h => ?_, ?_, fun t ht => ?_⟩
  · rw [decode_single, reverse_map_get_word_index h]
  · rw [decode_single, reverse_map_get, if_pos rfl]
  · have h1 : t ≠ eos_token v := by
      unfold eos_token at *
      omega
    have h2 : ¬(1 ≤ t ∧ t ≤ v.chars.length) := by
      unfold eos_token at ht
      omega
    rw [decode_single, reverse_map_get, if_neg h1, dif_neg h2]

/-- Witness for the amended C2 at the concrete vocabulary. -/
theorem decode_totality_witness :
    decode vABC [2] = ['b'] ∧ decode vABC [9] = [] :=
  ⟨(decode_totality vABC).1 'b' 2 (by decide),
   (decode_totality vABC).2.2 9 (by decide)⟩

/-- Claim C3: for every predictor, seed, and max_length, both the greedy
loop and the temperature-sampling loop — started, as in `generate` and
`generate_soft`, from the aliased state `chars = inp = encoded seed` —
append at most `size` tokens beyond the encoded seed to the output
sequence `chars` they return. -/
theorem generation_bounded_length (v : Vocab) (start : List Char) :
    (∀ (model : List Nat → List (List ℚ)) (size : Nat) (out : List Nat),
        generate_loop model (eos_token v) size true
            (encode v start, encode v start) = .ok out →
        out.length ≤ (encode v start).length + size) ∧
    (∀ (model : List Nat → List (List ℝ)) (sampler : Nat → List ℝ → Nat)
        (temperature : ℝ) (size i : Nat) (out : List Nat),
        generate_soft_loop model sampler (eos_token v) temperature size i true
            (encode v start, encode v start) = .ok out →
        out.length ≤ (encode v start).length + size) :=
  ⟨fun model size out h =>
     generate_loop_length model (eos_token v) size true _ _ out h,
   fun model sampler temperature size i out h =>
     generate_soft_loop_length model sampler (eos_token v) temperature size i
       true _ _ out h⟩

/-- Witness for C3: the greedy part at the cycling stub (3 final tokens,
seed of 1 token, budget 5), the sampling part at budget 0. -/
theorem generation_bounded_length_witness :
    ([1, 2, 3] : List Nat).length ≤ (encode vABC ['a']).length + 5 ∧
    (encode vABC ['a']).length ≤ (encode vABC ['a']).length + 0 :=
  ⟨(generation_bounded_length vABC ['a']).1 cycle_stub 5 [1, 2, 3] rfl,
   (generation_bounded_length vABC ['a']).2 empty_stub_r zero_sampler 1 0 0
     (encode vABC ['a']) rfl⟩

/-- Claim C4: greedy decoding is deterministic — two calls of `generate`
with the same predictor, seed, and max_length return identical output
(the predictor is a pure function in the embedding), and the argmax
selection picks the maximum-probability index with ties broken by the
lowest index: every entry is at most the selected one, and every entry
strictly before the selected index is strictly smaller. -/
theorem greedy_determinism_argmax :
    (∀ (v : Vocab) (m1 m2 : List Nat → List (List ℚ)) (s1 s2 : List Char)
        (n1 n2 : Nat), m1 = m2 → s1 = s2 → n1 = n2 →
        generate v m1 n1 s1 = generate v m2 n2 s2) ∧
    (∀ l : List ℚ, l ≠ [] → argmax l < l.length) ∧
    (∀ (l : List ℚ) (i : Nat) (hi : i < l.length) (hj : argmax l < l.length),
        l.get ⟨i, hi⟩ ≤ l.get ⟨argmax l, hj⟩ ∧
          (i < argmax l → l.get ⟨i, hi⟩ < l.get ⟨argmax l, hj⟩)) :=
  ⟨fun _ _ _ _ _ _ _ hm hs hn => by rw [hm, hs, hn],
   argmax_lt_length, argmax_is_first_max⟩

/-- Witness for C4 at a concrete call and a concrete distribution with a
tie: in [3, 5, 5] the argmax is index 1, the first of the two maximal
entries. -/
theorem greedy_determinism_argmax_witness :
    generate vABC cycle_stub 5 ['a'] = generate vABC cycle_stub 5 ['a'] ∧
    argmax [(3 : ℚ), 5, 5] < ([(3 : ℚ), 5, 5] : List ℚ).length ∧
    [(3 : ℚ), 5, 5].get ⟨2, by decide⟩ ≤
      [(3 : ℚ), 5, 5].get ⟨argmax [(3 : ℚ), 5, 5], by decide⟩ :=
  ⟨greedy_determinism_argmax.1 vABC cycle_stub cycle_stub ['a'] ['a'] 5 5
     rfl rfl rfl,
   greedy_determinism_argmax.2.1 [(3 : ℚ), 5, 5] (by decide),
   (greedy_determinism_argmax.2.2 [(3 : ℚ), 5, 5] 2 (by decide)
     (by decide)).1⟩

/-- Claim C5: if the predictor first selects the end-of-sequence token at
generation step k (1-indexed, within the budget) — where the query the
predictor answers at step j + 1 is `(run_state model e j).2`, the
program's actual model input including the duplicated first generated
token — greedy decoding stops there: the result is the decoded output
sequence `chars` after exactly k - 1 appended tokens, and the
end-of-sequence token never occurs in that output sequence (so the end
marker never reaches the decoded text). -/
theorem greedy_eos_termination (v : Vocab) (model : List Nat → List (List ℚ))
    (size k : Nat) (start : List Char)
    (hwf : ∀ inp, model inp ≠ [])
    (hk1 : 1 ≤ k) (hk2 : k ≤ size)
    (heos : next_choice model
        (run_state model (encode v start) (k - 1)).2 = eos_token v)
    (hpre : ∀ j, j < k - 1 →
        next_choice model (run_state model (encode v start) j).2 ≠ eos_token v) :
    generate v model size start =
      .ok (decode v (run_state model (encode v start) (k - 1)).1) ∧
    (run_state model (encode v start) (k - 1)).1.length =
      (encode v start).length + (k - 1) ∧
    eos_token v ∉ (run_state model (encode v start) (k - 1)).1 := by
  have hm : k - 1 ≤ size := by omega
  have hrun := generate_loop_run model (eos_token v) (k - 1) size
    (encode v start) hm hwf hpre heos
  refine ⟨?_, run_state_fst_length model (encode v start) (k - 1),
    run_state_fst_not_mem model (encode v start) (eos_token v)
      (eos_not_mem_encode v start) (k - 1) hpre⟩
  rw [generate, hrun]
  rfl

/-- Witness for C5: with the cycling stub and seed "a" the
end-of-sequence token is first selected at step 3 (whose query is the
aliased sequence [1, 2, 2, 3]), so two tokens are appended and the
output is "abc". -/
theorem greedy_eos_termination_witness :
    generate vABC cycle_stub 5 ['a'] =
      .ok (decode vABC (run_state cycle_stub (encode vABC ['a']) 2).1) ∧
    (run_state cycle_stub (encode vABC ['a']) 2).1.length =
      (encode vABC ['a']).length + 2 ∧
    eos_token vABC ∉ (run_state cycle_stub (encode vABC ['a']) 2).1 :=
  greedy_eos_termination vABC cycle_stub 5 3 ['a']
    (fun inp => by simp [cycle_stub]) (by decide) (by decide) (by decide)
    (by decide)

/-- Counterexample to claim C6 as stated: `generate_soft` performs no
temperature validation, so a call with temperature 0 does not fail with
an InvalidTemperature error; with budget 0 it returns the decoded seed
normally without touching the temperature at all. -/
theorem soft_temperature_zero_counterexample :
    generate_soft vABC empty_stub_r zero_sampler 0 ['a'] 0 = .ok ['a'] := rfl

/-- Claim C6 (amended): the source defines no InvalidTemperature error
and never validates the temperature: for every predictor, sampler, seed,
and temperature — zero and negative values included — `generate_soft`
with budget 0 returns the decoded seed normally, and whenever a step
does execute, the rescaling is carried out unconditionally with whatever
temperature was supplied. -/
theorem soft_no_temperature_validation (v : Vocab)
    (model : List Nat → List (List ℝ)) (sampler : Nat → List ℝ → Nat)
    (start : List Char) (temperature : ℝ) :
    generate_soft v model sampler 0 start temperature =
      .ok (decode v (encode v start)) := rfl

/-- Counterexample to claim C7 as stated: a seed encoding to zero tokens
('z' has no mapping in {'a', 'b', 'c'}) does not make `generate` fail
with an EmptySeed error: with budget 0 the call succeeds and returns the
empty string. -/
theorem empty_seed_counterexample :
    generate vABC empty_stub 0 ['z'] = .ok [] ∧ encode vABC ['z'] = [] :=
  ⟨rfl, rfl⟩

/-- Claim C7 (amended): `generate` performs no seed validation and has no
EmptySeed error.  With budget 0 any seed — empty-encoding ones included —
yields the decoded seed normally; with budget at least 1 and a seed
encoding to zero tokens, the model is queried on the empty sequence and,
its per-position output being empty (a sequence model returns one
distribution per input position), the extraction of the final position
fails with an index error. -/
theorem empty_seed_behavior :
    (∀ (v : Vocab) (model : List Nat → List (List ℚ)) (s : List Char),
        generate v model 0 s = .ok (decode v (encode v s))) ∧
    (∀ (v : Vocab) (model : List Nat → List (List ℚ)) (s : List Char)
        (size : Nat), encode v s = [] → model [] = [] → 1 ≤ size →
        generate v model size s = .error GenErr.indexError) := by
  constructor
  · intro v model s
    rfl
  · intro v model s size h0 hm hs
    match size, hs with
    | size + 1, _ =>
      have hq : generate_loop model (eos_token v) (size + 1) true
          (([] : List Nat), ([] : List Nat)) = .error GenErr.indexError := by
        rw [generate_loop]
        simp only [hm, List.getLast?_nil]
      rw [generate, h0, hq]
      rfl

/-- Witness for the amended C7: the empty seed with budget 1 and a
sequence-model stub hits the index error. -/
theorem empty_seed_behavior_witness :
    generate vABC empty_stub 1 [] = .error GenErr.indexError :=
  empty_seed_behavior.2 vABC empty_stub [] 1 rfl rfl (by decide)

/-- Claim C9: with vocabulary {'a': 1, 'b': 2, 'c': 3, '<eos>': 4} and
the stub predictor cycling through [1, 2, 3, 4] one index per call,
greedy generation from seed "a" with budget 5 returns the seed plus
decode([2, 3]), that is "abc", truncated at the end-of-sequence token. -/
theorem greedy_cycle_scenario :
    generate vABC cycle_stub 5 ['a'] = .ok (['a'] ++ decode vABC [2, 3]) ∧
    ['a'] ++ decode vABC [2, 3] = ['a', 'b', 'c'] :=
  ⟨rfl, rfl⟩

/-- Claim C10: the end-of-sequence index is one greater than the largest
character index (character at rank j has index j + 1 ≤ n, and every rank
is attained), so it collides with no character index; `vocab_size` is the
end-of-sequence index plus one, so every character index and the
end-of-sequence index are strictly below `vocab_size`, and every token
`encode` ever produces is a character index strictly below the
end-of-sequence index.  The vocabulary itself is a parameter no operation
ever modifies. -/
theorem vocab_invariants (v : Vocab) :
    eos_token v = v.chars.length + 1 ∧
    vocab_size v = eos_token v + 1 ∧
    (∀ c i, word_index v c = some i → 1 ≤ i ∧ i ≤ v.chars.length) ∧
    (∀ (j : Nat) (hj : j < v.chars.length),
        word_index v (v.chars.get ⟨j, hj⟩) = some (j + 1)) ∧
    (∀ c, word_index v c ≠ some (eos_token v)) ∧
    eos_token v < vocab_size v ∧
    (∀ (s : List Char) (t : Nat), t ∈ encode v s →
        1 ≤ t ∧ t < eos_token v ∧ t < vocab_size v) := by
  refine ⟨rfl, rfl, fun c i h => word_index_bounds h, fun j hj => ?_,
    fun c h => ?_, ?_, fun s t ht => ?_⟩
  · rw [word_index, index_of_char_get v.chars v.nodup j hj]
    rfl
  · have := word_index_bounds h
    unfold eos_token at this
    omega
  · unfold vocab_size
    omega
  · have := encode_mem_bounds ht
    unfold eos_token vocab_size eos_token
    omega

/-- Witness for C10 at the concrete vocabulary: the index of 'b' is 2,
within bounds. -/
theorem vocab_invariants_witness :
    1 ≤ 2 ∧ 2 ≤ (vABC).chars.length :=
  (vocab_invariants vABC).2.2.1 'b' 2 (by decide)

end TextGen
